import Mathlib

/-!
# Verification of the leaderboard update job

A shallow embedding of `update_leaderboard.py` (and the news pipeline shared
with `update_news.py`).  Python dictionaries are modelled as association
lists with first-key-wins lookup and replace-in-place/append-at-end update,
matching CPython dict semantics for the operations the scripts perform.
Numbers are modelled as exact rationals, following the spec's reading of the
scores as full-precision reals.
-/

namespace Leaderboard

/-! ## Dictionaries (association lists with Python dict semantics) -/

/-- `d.get(k)`: the value of the first pair whose key is `k`. -/
def dictGet {α : Type} (d : List (String × α)) (k : String) : Option α :=
  match d with
  | [] => none
  | (k', v) :: rest => if k' = k then some v else dictGet rest k

/-- `d[k] = v`: replace the value at `k` in place, or append `(k, v)` if absent. -/
def dictSet {α : Type} (d : List (String × α)) (k : String) (v : α) :
    List (String × α) :=
  match d with
  | [] => [(k, v)]
  | (k', v') :: rest =>
    if k' = k then (k, v) :: rest else (k', v') :: dictSet rest k v

/-- `d.setdefault(k, v)`: insert `(k, v)` only when `k` is absent. -/
def dictSetdefault {α : Type} (d : List (String × α)) (k : String) (v : α) :
    List (String × α) :=
  if (dictGet d k).isSome then d else dictSet d k v

/-- `d.update(u)`: apply the pairs of `u` to `d` in order. -/
def dictUpdate {α : Type} (d u : List (String × α)) : List (String × α) :=
  u.foldl (fun acc p => dictSet acc p.1 p.2) d

/-- Remove every pair with key `k` (used only to state frame properties). -/
def dictErase {α : Type} (d : List (String × α)) (k : String) :
    List (String × α) :=
  match d with
  | [] => []
  | (k', v) :: rest =>
    if k' = k then dictErase rest k else (k', v) :: dictErase rest k

/-! ## Scoring tables (`DEFAULTS`, `WEIGHTS` in `update_leaderboard.py`) -/

/-- Built-in default metric profiles (0-100 per factor). -/
def DEFAULTS : List (String × List (String × ℚ)) :=
  [ ("ChatGPT (GPT-4o)",
      [("popularity", 95), ("performance", 92), ("cost", 70), ("privacy", 70), ("innovation", 92)]),
    ("Claude 3 (Opus/Sonnet)",
      [("popularity", 85), ("performance", 94), ("cost", 75), ("privacy", 85), ("innovation", 86)]),
    ("Gemini 1.5 (Pro/Ultra)",
      [("popularity", 82), ("performance", 88), ("cost", 78), ("privacy", 80), ("innovation", 88)]),
    ("Midjourney v6",
      [("popularity", 92), ("performance", 90), ("cost", 75), ("privacy", 75), ("innovation", 85)]),
    ("DALL·E 3",
      [("popularity", 90), ("performance", 86), ("cost", 78), ("privacy", 70), ("innovation", 84)]),
    ("Stable Diffusion XL",
      [("popularity", 88), ("performance", 84), ("cost", 95), ("privacy", 92), ("innovation", 83)]),
    ("Sora 2 (OpenAI)",
      [("popularity", 90), ("performance", 95), ("cost", 50), ("privacy", 72), ("innovation", 96)]),
    ("Veo 2 (Google DeepMind)",
      [("popularity", 82), ("performance", 92), ("cost", 55), ("privacy", 82), ("innovation", 90)]),
    ("Runway Gen-3",
      [("popularity", 86), ("performance", 82), ("cost", 80), ("privacy", 70), ("innovation", 84)]),
    ("Sunō v3",
      [("popularity", 84), ("performance", 85), ("cost", 82), ("privacy", 65), ("innovation", 83)]),
    ("ElevenLabs",
      [("popularity", 88), ("performance", 88), ("cost", 75), ("privacy", 78), ("innovation", 82)]),
    ("Udio AI",
      [("popularity", 80), ("performance", 78), ("cost", 85), ("privacy", 65), ("innovation", 78)]),
    ("GPT-4o (OpenAI)",
      [("popularity", 95), ("performance", 92), ("cost", 70), ("privacy", 70), ("innovation", 92)]),
    ("Gemini 1.5 Ultra",
      [("popularity", 84), ("performance", 88), ("cost", 78), ("privacy", 80), ("innovation", 88)]),
    ("Claude 3 Opus",
      [("popularity", 82), ("performance", 94), ("cost", 75), ("privacy", 85), ("innovation", 86)]) ]

/-- The five fixed weights (they sum to 1). -/
def WEIGHTS : List (String × ℚ) :=
  [("popularity", 0.40), ("performance", 0.25), ("cost", 0.10),
   ("privacy", 0.10), ("innovation", 0.15)]

/-- An overrides mapping: tool name to partial metric profile
(`metrics_overrides.json`). -/
abbrev Overrides := List (String × List (String × ℚ))

/-- `for k in WEIGHTS: base.setdefault(k, 70)`. -/
def fillDefaults (d : List (String × ℚ)) : List (String × ℚ) :=
  WEIGHTS.foldl (fun b p => dictSetdefault b p.1 70) d

/-- The merged metric profile of `score_for`: defaults for the exact tool
name, updated by the override entries whose key is a recognized weight key,
then every weight key still missing filled with 70. -/
def mergedProfile (tool_name : String) (overrides : Overrides) :
    List (String × ℚ) :=
  let base := (dictGet DEFAULTS tool_name).getD []
  let ov := (dictGet overrides tool_name).getD []
  fillDefaults (dictUpdate base (ov.filter (fun p => (dictGet WEIGHTS p.1).isSome)))

/-- `score_for`: the weighted sum of the merged profile over the five
weighted factors. -/
def score_for (tool_name : String) (overrides : Overrides) : ℚ :=
  WEIGHTS.foldl
    (fun acc p => acc + ((dictGet (mergedProfile tool_name overrides) p.1).getD 0) * p.2) 0

/-- `ordinal`: display form of a 1-based rank. -/
def ordinal (n : Nat) : String :=
  if n = 1 then "1st" else if n = 2 then "2nd" else if n = 3 then "3rd"
  else toString n ++ "th"

/-! ## Rows and category re-ranking -/

/-- A category row: an opaque mapping from field names to (opaque) values. -/
abbrev Row := List (String × String)

/-- `row.get("tool", "")`. -/
def toolOf (row : Row) : String := (dictGet row "tool").getD ""

/-- The score the re-ranking loop computes for a row. -/
def rowScore (overrides : Overrides) (row : Row) : ℚ :=
  score_for (toolOf row) overrides

/-- The stable descending sort by a key, i.e. Python
`list.sort(key=..., reverse=True)`: an element precedes another exactly when
its key is larger, or the keys are equal and it came first. -/
def sortDescBy {α β : Type} [LinearOrder β] (key : α → β) (l : List α) :
    List α :=
  l.insertionSort (fun a b => key b ≤ key a)

/-- `for i, (_, row) in enumerate(scored, start=1): row["rank"] = ordinal(i)`,
building the new row list. -/
def assignRanks : Nat → List Row → List Row
  | _, [] => []
  | i, r :: rs => dictSet r "rank" (ordinal i) :: assignRanks (i + 1) rs

/-- The per-category re-ranking step: score each row by its `tool` field,
stable-sort descending, then write the 1-based ordinal ranks. -/
def rerankRows (overrides : Overrides) (rows : List Row) : List Row :=
  assignRanks 1 (sortDescBy (rowScore overrides) rows)

/-! ## News pipeline -/

/-- Relevance keywords of `update_leaderboard.py`. -/
def KEYWORDS : List String :=
  ["sora", "veo", "gemini", "claude", "gpt", "realtime", "text-to-video",
   "agent", "multimodal", "model", "release", "update", "capabilities"]

/-- Maximum number of news items kept (`MAX_NEWS`). -/
def MAX_NEWS : Nat := 10

/-- The whitespace characters matched by Python's regex class on the ASCII
plane (the inputs the scripts handle). -/
def isPySpace (c : Char) : Bool :=
  c = ' ' || c = '\t' || c = '\n' || c = '\x0d' || c = '\x0c' || c = '\x0b'

/-- Scan for the first closing angle bracket, returning the characters after
it: the suffix a regex match of a markup tag leaves behind. -/
def goGt : List Char → Option (List Char)
  | [] => none
  | c :: rest => if c = '>' then some rest else goGt rest

/-- Given the characters following an opening angle bracket, return the
remainder after a complete tag (one or more non-closing characters followed
by the closing bracket), or `none` when no tag starts here. -/
def splitTag : List Char → Option (List Char)
  | [] => none
  | c :: rest => if c = '>' then none else goGt rest

theorem goGt_length : ∀ {l r : List Char}, goGt l = some r → r.length < l.length
  | [], _, h => by simp [goGt] at h
  | c :: rest, r, h => by
    by_cases hc : c = '>'
    · simp [goGt, hc] at h
      subst h
      simp
    · simp [goGt, hc] at h
      have := goGt_length h
      simp
      omega

theorem splitTag_length {l r : List Char} (h : splitTag l = some r) :
    r.length < l.length := by
  match l with
  | [] => simp [splitTag] at h
  | c :: rest =>
    by_cases hc : c = '>'
    · simp [splitTag, hc] at h
    · simp [splitTag, hc] at h
      have := goGt_length h
      simp
      omega

/-- Fuelled scanner behind `stripTags`; the fuel only bounds the recursion
depth and never runs out when it starts at the input length (see
`stripTagsGo_fuel`). -/
def stripTagsGo : Nat → List Char → List Char
  | 0, _ => []
  | _, [] => []
  | fuel + 1, c :: rest =>
    if c = '<' then
      match splitTag rest with
      | some rest2 => stripTagsGo fuel rest2
      | none => c :: stripTagsGo fuel rest
    else c :: stripTagsGo fuel rest

/-- `re.sub(r"<[^>]+>", "", ...)`: delete every leftmost match of a markup
tag, keeping an opening bracket with no matching close. -/
def stripTags (l : List Char) : List Char :=
  stripTagsGo l.length l

/-- The fuel of `stripTagsGo` is irrelevant as long as it dominates the
input length, so `stripTags` is the function that scans to the very end. -/
theorem stripTagsGo_fuel :
    ∀ (f f' : Nat) (l : List Char), l.length ≤ f → l.length ≤ f' →
      stripTagsGo f l = stripTagsGo f' l
  | f, f', [], _, _ => by cases f <;> cases f' <;> rfl
  | 0, _, _ :: _, h, _ => by simp at h
  | _ + 1, 0, _ :: _, _, h' => by simp at h'
  | f + 1, f' + 1, c :: rest, h, h' => by
    simp only [List.length_cons] at h h'
    by_cases hc : c = '<'
    · simp only [stripTagsGo, if_pos hc]
      cases hs : splitTag rest with
      | some rest2 =>
        simp only [hs]
        have hlen := splitTag_length hs
        exact stripTagsGo_fuel f f' rest2 (by omega) (by omega)
      | none =>
        simp only [hs]
        rw [stripTagsGo_fuel f f' rest (by omega) (by omega)]
    · simp only [stripTagsGo, if_neg hc]
      rw [stripTagsGo_fuel f f' rest (by omega) (by omega)]

/-- Scanner behind `collapseWs`: `inRun` records whether the current
position sits inside a whitespace run whose single space was already
emitted. -/
def collapseGo (inRun : Bool) : List Char → List Char
  | [] => []
  | c :: rest =>
    if isPySpace c then
      if inRun then collapseGo true rest else ' ' :: collapseGo true rest
    else c :: collapseGo false rest

/-- `re.sub(r"\s+", " ", ...)`: each maximal whitespace run becomes one
space. -/
def collapseWs (l : List Char) : List Char :=
  collapseGo false l

/-- `str.strip()`: drop whitespace from both ends. -/
def stripEnds (l : List Char) : List Char :=
  ((l.dropWhile isPySpace).reverse.dropWhile isPySpace).reverse

/-- `clean_html`: strip markup tags, collapse whitespace runs to single
spaces, trim the ends. -/
def clean_html (text : String) : String :=
  String.mk (stripEnds (collapseWs (stripTags text.toList)))

/-- Python slicing `s[:n]`. -/
def strTake (s : String) (n : Nat) : String :=
  String.mk (s.toList.take n)

/-- A produced news item. -/
structure NewsObj where
  title : String
  date : String
  summary : String
  url : String
deriving DecidableEq

/-- `to_news_obj`: clean the description and cap the summary at 220
characters, truncating to 217 plus an ellipsis glyph. -/
def to_news_obj (t link pub desc : String) : NewsObj :=
  let summary := clean_html desc
  let summary := if 220 < summary.length then strTake summary 217 ++ "…" else summary
  { title := t, date := pub, summary := summary, url := link }

/-- Is `needle` a prefix of `hay`? -/
def isPrefixCh : List Char → List Char → Bool
  | [], _ => true
  | _ :: _, [] => false
  | a :: as, b :: bs => a = b && isPrefixCh as bs

/-- Python's `needle in hay` substring test. -/
def containsSub (needle : List Char) : List Char → Bool
  | [] => isPrefixCh needle []
  | c :: rest => isPrefixCh needle (c :: rest) || containsSub needle rest

/-- `looks_relevant`: does the lowercased title-and-description blob contain
any keyword? -/
def looks_relevant (title desc : String) : Bool :=
  let blob := (title ++ " " ++ desc).toList.map Char.toLower
  KEYWORDS.any (fun k => containsSub k.toList blob)

/-- One parsed feed entry `(title, link, pubDate, description)`. -/
structure Entry where
  title : String
  link : String
  pub : String
  desc : String
deriving DecidableEq

/-- The binary relevance score prepended to each pool tuple. -/
def relScore (e : Entry) : Nat :=
  if looks_relevant e.title e.desc then 1 else 0

/-- The selection walk over the sorted pool: skip duplicate `(title, link)`
pairs, collect news objects, stop once `MAX_NEWS` are collected. -/
def collect (seen : List (String × String)) (acc : List NewsObj) :
    List Entry → List NewsObj
  | [] => acc
  | e :: rest =>
    if (e.title, e.link) ∈ seen then collect seen acc rest
    else
      let acc2 := acc ++ [to_news_obj e.title e.link e.pub e.desc]
      if MAX_NEWS ≤ acc2.length then acc2
      else collect ((e.title, e.link) :: seen) acc2 rest

/-- The news selection step of `main`: drop entries missing a title or a
link, stable-sort by the binary relevance score descending, then walk the
sorted pool. -/
def selectNews (pool : List Entry) : List NewsObj :=
  let ranked := pool.filter (fun e => !(e.title = "") && !(e.link = ""))
  collect [] [] (sortDescBy relScore ranked)

/-- Keep the first entry of each `(title, link)` class whose key is not in
`seen` (used only to state what the selection walk computes). -/
def dedupSeen (seen : List (String × String)) : List Entry → List Entry
  | [] => []
  | e :: rest =>
    if (e.title, e.link) ∈ seen then dedupSeen seen rest
    else e :: dedupSeen ((e.title, e.link) :: seen) rest

/-! ## The document transform -/

/-- A category object: a name plus its rows. -/
structure Category where
  name : String
  rows : List Row

/-- The leaderboard document. -/
structure Doc where
  timestamp : String
  news : List NewsObj
  categories : List Category

/-- The in-memory update `main` performs between load and save: set the
timestamp, replace the news only when the selection is nonempty, re-rank
every category. `now` is the formatted current time and `pool` the flat
pool parsed from the feeds. -/
def updateDoc (now : String) (pool : List Entry) (overrides : Overrides)
    (doc : Doc) : Doc :=
  let news := selectNews pool
  { timestamp := now
    news := if news = [] then doc.news else news
    categories := doc.categories.map
      (fun c => { c with rows := rerankRows overrides c.rows }) }

/-! ## Lemmas: dictionaries -/

theorem dictGet_set_self {α : Type} (d : List (String × α)) (k : String) (v : α) :
    dictGet (dictSet d k v) k = some v := by
  induction d with
  | nil => simp [dictGet, dictSet]
  | cons p rest ih =>
    by_cases h : p.1 = k
    · simp [dictSet, dictGet, h]
    · simp [dictSet, dictGet, h, ih]

theorem dictGet_set_ne {α : Type} (d : List (String × α)) {k k' : String}
    (v : α) (h : k' ≠ k) : dictGet (dictSet d k v) k' = dictGet d k' := by
  induction d with
  | nil => simp [dictGet, dictSet, Ne.symm h]
  | cons p rest ih =>
    by_cases hp : p.1 = k
    · simp [dictSet, dictGet, hp, h, Ne.symm h]
    · by_cases hp' : p.1 = k'
      · simp [dictSet, dictGet, hp, hp', h, Ne.symm h]
      · simp [dictSet, dictGet, hp, hp', ih]

theorem dictSet_set_same {α : Type} (d : List (String × α)) (k : String)
    (v w : α) : dictSet (dictSet d k v) k w = dictSet d k w := by
  induction d with
  | nil => simp [dictSet]
  | cons p rest ih =>
    by_cases h : p.1 = k
    · simp [dictSet, h]
    · simp [dictSet, h, ih]

theorem dictErase_set {α : Type} (d : List (String × α)) (k : String) (v : α) :
    dictErase (dictSet d k v) k = dictErase d k := by
  induction d with
  | nil => simp [dictErase, dictSet]
  | cons p rest ih =>
    obtain ⟨a, b⟩ := p
    by_cases h : a = k
    · simp [dictSet, dictErase, h]
    · simp [dictSet, dictErase, h, ih]

theorem dictGet_setdefault {α : Type} (d : List (String × α)) (k k2 : String)
    (v : α) :
    dictGet (dictSetdefault d k v) k2 =
      if k2 = k then some ((dictGet d k2).getD v) else dictGet d k2 := by
  by_cases hk : k2 = k
  · subst hk
    by_cases hs : (dictGet d k2).isSome
    · obtain ⟨x, hx⟩ := Option.isSome_iff_exists.mp hs
      simp [dictSetdefault, hs, hx]
    · have hn : dictGet d k2 = none := Option.not_isSome_iff_eq_none.mp hs
      simp [dictSetdefault, hs, hn, dictGet_set_self]
  · by_cases hs : (dictGet d k).isSome
    · simp [dictSetdefault, hs, hk]
    · simp [dictSetdefault, hs, hk, dictGet_set_ne _ _ hk]

/-! ## Lemmas: the stable descending sort -/

theorem sortDescBy_perm {α β : Type} [LinearOrder β] (key : α → β)
    (l : List α) : (sortDescBy key l).Perm l :=
  List.perm_insertionSort _ l

theorem sortDescBy_length {α β : Type} [LinearOrder β] (key : α → β)
    (l : List α) : (sortDescBy key l).length = l.length :=
  (sortDescBy_perm key l).length_eq

theorem sortDescBy_pairwise {α β : Type} [LinearOrder β] (key : α → β)
    (l : List α) : (sortDescBy key l).Pairwise (fun a b => key b ≤ key a) := by
  haveI : IsTotal α (fun a b => key b ≤ key a) :=
    ⟨fun a b => le_total (key b) (key a)⟩
  haveI : IsTrans α (fun a b => key b ≤ key a) :=
    ⟨fun _ _ _ hab hbc => le_trans hbc hab⟩
  exact List.sorted_insertionSort _ l

theorem sortDescBy_of_pairwise {α β : Type} [LinearOrder β] {key : α → β}
    {l : List α} (h : l.Pairwise (fun a b => key b ≤ key a)) :
    sortDescBy key l = l :=
  List.Sorted.insertionSort_eq h

theorem orderedInsert_filter_class {α β : Type} [LinearOrder β] (key : α → β)
    (x : α) (l : List α) (s : β) :
    (List.orderedInsert (fun a b => key b ≤ key a) x l).filter
        (fun a => key a == s) =
      (x :: l).filter (fun a => key a == s) := by
  induction l with
  | nil => rfl
  | cons y ys ih =>
    by_cases hc : key y ≤ key x
    · simp [List.orderedInsert, hc]
    · have hlt : key x < key y := lt_of_not_le hc
      by_cases hx : key x = s
      · have hy : ¬ (key y = s) := fun hys => absurd (hx.trans hys.symm) (ne_of_lt hlt)
        simp only [List.orderedInsert, if_neg hc]
        rw [List.filter_cons, List.filter_cons, List.filter_cons]
        simp [hx, hy, ih, List.filter_cons]
      · simp only [List.orderedInsert, if_neg hc]
        rw [List.filter_cons, List.filter_cons, List.filter_cons]
        simp [hx, ih, List.filter_cons]

theorem sortDescBy_filter_class {α β : Type} [LinearOrder β] (key : α → β)
    (l : List α) (s : β) :
    (sortDescBy key l).filter (fun a => key a == s) =
      l.filter (fun a => key a == s) := by
  induction l with
  | nil => rfl
  | cons x xs ih =>
    show (List.orderedInsert _ x (sortDescBy key xs)).filter _ = _
    rw [orderedInsert_filter_class]
    rw [List.filter_cons, List.filter_cons, ih]

/-! ## Lemmas: rank assignment -/

theorem rowScore_dictSet_rank (ov : Overrides) (r : Row) (v : String) :
    rowScore ov (dictSet r "rank" v) = rowScore ov r := by
  have h : dictGet (dictSet r "rank" v) "tool" = dictGet r "tool" :=
    dictGet_set_ne r v (by decide)
  simp [rowScore, toolOf, h]

theorem assignRanks_map_rowScore (ov : Overrides) :
    ∀ (i : Nat) (l : List Row),
      (assignRanks i l).map (rowScore ov) = l.map (rowScore ov)
  | _, [] => rfl
  | i, r :: rs => by
    simp [assignRanks, rowScore_dictSet_rank, assignRanks_map_rowScore ov (i + 1) rs]

theorem assignRanks_assignRanks :
    ∀ (i : Nat) (l : List Row), assignRanks i (assignRanks i l) = assignRanks i l
  | _, [] => rfl
  | i, r :: rs => by
    simp [assignRanks, dictSet_set_same, assignRanks_assignRanks (i + 1) rs]

theorem assignRanks_rank_map :
    ∀ (i : Nat) (l : List Row),
      (assignRanks i l).map (fun r => dictGet r "rank") =
        (List.range l.length).map (fun j => some (ordinal (i + j)))
  | _, [] => rfl
  | i, r :: rs => by
    have ih := assignRanks_rank_map (i + 1) rs
    simp only [assignRanks, List.map_cons, dictGet_set_self, ih,
      List.length_cons, List.range_succ_eq_map, List.map_map]
    refine List.cons_eq_cons.mpr ⟨by simp, ?_⟩
    apply List.map_congr_left
    intro j _
    have h1 : i + 1 + j = i + (j + 1) := by omega
    simp [Function.comp, h1]

theorem assignRanks_map_erase :
    ∀ (i : Nat) (l : List Row),
      (assignRanks i l).map (fun r => dictErase r "rank") =
        l.map (fun r => dictErase r "rank")
  | _, [] => rfl
  | i, r :: rs => by
    simp [assignRanks, dictErase_set, assignRanks_map_erase (i + 1) rs]

theorem assignRanks_length :
    ∀ (i : Nat) (l : List Row), (assignRanks i l).length = l.length
  | _, [] => rfl
  | i, _ :: rs => by simp [assignRanks, assignRanks_length (i + 1) rs]

theorem rerankRows_length (ov : Overrides) (rows : List Row) :
    (rerankRows ov rows).length = rows.length := by
  rw [rerankRows, assignRanks_length, sortDescBy_length]

theorem rerankRows_rank_map (ov : Overrides) (rows : List Row) :
    (rerankRows ov rows).map (fun r => dictGet r "rank") =
      (List.range rows.length).map (fun j => some (ordinal (j + 1))) := by
  rw [rerankRows, assignRanks_rank_map, sortDescBy_length]
  apply List.map_congr_left
  intro j _
  rw [Nat.add_comm]

/-! ## Lemmas: idempotence of re-ranking -/

theorem assignRanks_pairwise (ov : Overrides) (i : Nat) (l : List Row)
    (h : l.Pairwise (fun a b => rowScore ov b ≤ rowScore ov a)) :
    (assignRanks i l).Pairwise (fun a b => rowScore ov b ≤ rowScore ov a) := by
  have key : ∀ (m : List Row),
      m.Pairwise (fun a b => rowScore ov b ≤ rowScore ov a) ↔
        (m.map (rowScore ov)).Pairwise (fun x y => y ≤ x) := by
    intro m
    rw [List.pairwise_map]
  rw [key, assignRanks_map_rowScore, ← key]
  exact h

theorem rerankRows_idem (ov : Overrides) (rows : List Row) :
    rerankRows ov (rerankRows ov rows) = rerankRows ov rows := by
  rw [rerankRows, rerankRows]
  rw [show sortDescBy (rowScore ov)
        (assignRanks 1 (sortDescBy (rowScore ov) rows)) =
      assignRanks 1 (sortDescBy (rowScore ov) rows) from
    sortDescBy_of_pairwise
      (assignRanks_pairwise ov 1 _ (sortDescBy_pairwise (rowScore ov) rows))]
  exact assignRanks_assignRanks 1 _

/-! ## Lemmas: news selection -/

theorem mem_dedupSeen_not_seen {seen : List (String × String)}
    {l : List Entry} {e : Entry} (h : e ∈ dedupSeen seen l) :
    (e.title, e.link) ∉ seen := by
  induction l generalizing seen with
  | nil => simp [dedupSeen] at h
  | cons x rest ih =>
    by_cases hx : (x.title, x.link) ∈ seen
    · exact ih (by simpa [dedupSeen, hx] using h)
    · rw [dedupSeen, if_neg hx] at h
      rcases List.mem_cons.mp h with h1 | h1
      · subst h1; exact hx
      · have := ih h1
        intro hc
        exact this (List.mem_cons_of_mem _ hc)

theorem mem_dedupSeen_mem {seen : List (String × String)} {l : List Entry}
    {e : Entry} (h : e ∈ dedupSeen seen l) : e ∈ l := by
  induction l generalizing seen with
  | nil => simp [dedupSeen] at h
  | cons x rest ih =>
    by_cases hx : (x.title, x.link) ∈ seen
    · exact List.mem_cons_of_mem _ (ih (by simpa [dedupSeen, hx] using h))
    · rw [dedupSeen, if_neg hx] at h
      rcases List.mem_cons.mp h with h1 | h1
      · exact h1 ▸ List.mem_cons_self _ _
      · exact List.mem_cons_of_mem _ (ih h1)

theorem dedupSeen_pairwise (seen : List (String × String)) (l : List Entry) :
    (dedupSeen seen l).Pairwise
      (fun a b => (a.title, a.link) ≠ (b.title, b.link)) := by
  induction l generalizing seen with
  | nil => exact List.Pairwise.nil
  | cons x rest ih =>
    by_cases hx : (x.title, x.link) ∈ seen
    · rw [dedupSeen, if_pos hx]; exact ih seen
    · rw [dedupSeen, if_neg hx]
      refine List.Pairwise.cons ?_ (ih _)
      intro b hb hc
      exact mem_dedupSeen_not_seen hb (hc ▸ List.mem_cons_self _ _)

theorem collect_eq_dedup_take :
    ∀ (l : List Entry) (seen : List (String × String)) (acc : List NewsObj),
      acc.length < MAX_NEWS →
      collect seen acc l =
        acc ++ ((dedupSeen seen l).map
          (fun e => to_news_obj e.title e.link e.pub e.desc)).take
            (MAX_NEWS - acc.length)
  | [], _, acc, _ => by simp [collect, dedupSeen]
  | e :: rest, seen, acc, hacc => by
    by_cases hx : (e.title, e.link) ∈ seen
    · rw [collect, if_pos hx, dedupSeen, if_pos hx]
      exact collect_eq_dedup_take rest seen acc hacc
    · rw [collect, if_neg hx, dedupSeen, if_neg hx]
      simp only [List.map_cons]
      by_cases hfull : MAX_NEWS ≤ (acc ++ [to_news_obj e.title e.link e.pub e.desc]).length
      · rw [if_pos hfull]
        have hlen : MAX_NEWS - acc.length = 1 := by
          simp at hfull
          omega
        rw [hlen]
        simp
      · rw [if_neg hfull]
        rw [collect_eq_dedup_take rest _ _ (by simpa using lt_of_not_le hfull)]
        have hsub : MAX_NEWS - (acc ++ [to_news_obj e.title e.link e.pub e.desc]).length
            = MAX_NEWS - acc.length - 1 := by
          simp
          omega
        rw [hsub]
        have htake : MAX_NEWS - acc.length = (MAX_NEWS - acc.length - 1) + 1 := by
          omega
        rw [htake, List.take_succ_cons]
        simp

theorem selectNews_eq_dedup_take (pool : List Entry) :
    selectNews pool =
      ((dedupSeen []
          (sortDescBy relScore
            (pool.filter (fun e => !(e.title = "") && !(e.link = ""))))).map
        (fun e => to_news_obj e.title e.link e.pub e.desc)).take MAX_NEWS := by
  rw [selectNews, collect_eq_dedup_take _ _ _ (by decide)]
  simp

/-! ## Lemmas: score resolution -/

theorem fillDefaults_get (d : List (String × ℚ)) (k : String) :
    dictGet (fillDefaults d) k =
      if (dictGet WEIGHTS k).isSome then some ((dictGet d k).getD 70)
      else dictGet d k := by
  by_cases h1 : k = "popularity"
  · subst h1; simp [fillDefaults, WEIGHTS, List.foldl, dictGet_setdefault, dictGet]
  · by_cases h2 : k = "performance"
    · subst h2; simp [fillDefaults, WEIGHTS, List.foldl, dictGet_setdefault, dictGet]
    · by_cases h3 : k = "cost"
      · subst h3; simp [fillDefaults, WEIGHTS, List.foldl, dictGet_setdefault, dictGet]
      · by_cases h4 : k = "privacy"
        · subst h4; simp [fillDefaults, WEIGHTS, List.foldl, dictGet_setdefault, dictGet]
        · by_cases h5 : k = "innovation"
          · subst h5
            simp [fillDefaults, WEIGHTS, List.foldl, dictGet_setdefault, dictGet]
          · have g1 : ¬("popularity" = k) := fun h => h1 h.symm
            have g2 : ¬("performance" = k) := fun h => h2 h.symm
            have g3 : ¬("cost" = k) := fun h => h3 h.symm
            have g4 : ¬("privacy" = k) := fun h => h4 h.symm
            have g5 : ¬("innovation" = k) := fun h => h5 h.symm
            simp [fillDefaults, WEIGHTS, List.foldl, dictGet_setdefault, dictGet,
              h1, h2, h3, h4, h5, g1, g2, g3, g4, g5]

theorem score_for_expand (tool_name : String) (overrides : Overrides) :
    score_for tool_name overrides =
      ((dictGet (mergedProfile tool_name overrides) "popularity").getD 0) * 0.40 +
      ((dictGet (mergedProfile tool_name overrides) "performance").getD 0) * 0.25 +
      ((dictGet (mergedProfile tool_name overrides) "cost").getD 0) * 0.10 +
      ((dictGet (mergedProfile tool_name overrides) "privacy").getD 0) * 0.10 +
      ((dictGet (mergedProfile tool_name overrides) "innovation").getD 0) * 0.15 := by
  simp only [score_for, WEIGHTS, List.foldl]
  ring

theorem score_for_absent (tool_name : String) (overrides : Overrides)
    (h1 : dictGet DEFAULTS tool_name = none)
    (h2 : dictGet overrides tool_name = none) :
    score_for tool_name overrides = 70 := by
  have hm : mergedProfile tool_name overrides = fillDefaults [] := by
    simp [mergedProfile, h1, h2, dictUpdate]
  rw [score_for_expand, hm]
  norm_num [fillDefaults, WEIGHTS, List.foldl, dictGet_setdefault, dictGet]

/-! ## Lemmas: summary normalization -/

theorem head?_dropWhile_not {α : Type} {p : α → Bool} :
    ∀ {l : List α} {c : α}, (l.dropWhile p).head? = some c → p c = false := by
  intro l
  induction l with
  | nil => intro c h; simp [List.dropWhile] at h
  | cons x rest ih =>
    intro c h
    by_cases px : p x
    · rw [List.dropWhile_cons_of_pos px] at h
      exact ih h
    · rw [List.dropWhile_cons_of_neg px] at h
      simp at h
      rw [← h]
      simpa using px

theorem collapseGo_true_head :
    ∀ {l : List Char} {c : Char},
      (collapseGo true l).head? = some c → isPySpace c = false := by
  intro l
  induction l with
  | nil => intro c h; simp [collapseGo] at h
  | cons x rest ih =>
    intro c h
    by_cases hx : isPySpace x
    · rw [show collapseGo true (x :: rest) = collapseGo true rest by
          simp [collapseGo, hx]] at h
      exact ih h
    · rw [show collapseGo true (x :: rest) = x :: collapseGo false rest by
          simp [collapseGo, hx]] at h
      simp at h
      rw [← h]
      simpa using hx

theorem collapseGo_chain (l : List Char) :
    (collapseGo false l).Chain'
        (fun a b => ¬(isPySpace a = true ∧ isPySpace b = true)) ∧
      (collapseGo true l).Chain'
        (fun a b => ¬(isPySpace a = true ∧ isPySpace b = true)) := by
  induction l with
  | nil => simp [collapseGo]
  | cons x rest ih =>
    by_cases hx : isPySpace x
    · constructor
      · rw [show collapseGo false (x :: rest) = ' ' :: collapseGo true rest by
            simp [collapseGo, hx]]
        rw [List.chain'_cons']
        refine ⟨?_, ih.2⟩
        intro y hy hcontra
        have hy' : (collapseGo true rest).head? = some y := hy
        rw [collapseGo_true_head hy'] at hcontra
        exact Bool.false_ne_true hcontra.2
      · rw [show collapseGo true (x :: rest) = collapseGo true rest by
            simp [collapseGo, hx]]
        exact ih.2
    · have hstep : ∀ b, collapseGo b (x :: rest) = x :: collapseGo false rest := by
        intro b; simp [collapseGo, hx]
      have hchain : (x :: collapseGo false rest).Chain'
          (fun a b => ¬(isPySpace a = true ∧ isPySpace b = true)) := by
        rw [List.chain'_cons']
        refine ⟨?_, ih.1⟩
        intro y _ hcontra
        exact hx hcontra.1
      exact ⟨by rw [hstep]; exact hchain, by rw [hstep]; exact hchain⟩

theorem prefix_head_eq {α : Type} {l₁ l₂ : List α} (h : l₁.IsPrefix l₂) {c : α}
    (hc : l₁.head? = some c) : l₂.head? = some c := by
  obtain ⟨t, rfl⟩ := h
  cases l₁ with
  | nil => simp at hc
  | cons a l => simpa using hc

theorem stripEnds_head {l : List Char} {c : Char}
    (h : (stripEnds l).head? = some c) : isPySpace c = false := by
  unfold stripEnds at h
  have hpre : ((l.dropWhile isPySpace).reverse.dropWhile isPySpace).reverse.IsPrefix
      (l.dropWhile isPySpace) := by
    have hsuf : ((l.dropWhile isPySpace).reverse.dropWhile isPySpace).IsSuffix
        ((l.dropWhile isPySpace).reverse) := List.dropWhile_suffix _
    have := (List.reverse_prefix).mpr hsuf
    simpa using this
  exact head?_dropWhile_not (prefix_head_eq hpre h)

theorem stripEnds_getLast {l : List Char} {c : Char}
    (h : (stripEnds l).getLast? = some c) : isPySpace c = false := by
  unfold stripEnds at h
  rw [List.getLast?_reverse] at h
  exact head?_dropWhile_not h

theorem chain'_stripEnds {R : Char → Char → Prop} {l : List Char}
    (h : l.Chain' R) : (stripEnds l).Chain' R := by
  unfold stripEnds
  have h1 : (l.dropWhile isPySpace).Chain' R :=
    h.suffix (List.dropWhile_suffix _)
  have h2 : ((l.dropWhile isPySpace).reverse).Chain' (flip R) :=
    (List.chain'_reverse).mpr h1
  have h3 : (((l.dropWhile isPySpace).reverse).dropWhile isPySpace).Chain' (flip R) :=
    h2.suffix (List.dropWhile_suffix _)
  exact (List.chain'_reverse).mpr h3

theorem clean_html_chain (text : String) :
    (clean_html text).toList.Chain'
      (fun a b => ¬(isPySpace a = true ∧ isPySpace b = true)) :=
  chain'_stripEnds (collapseGo_chain _).1

theorem clean_html_head {text : String} {c : Char}
    (h : (clean_html text).toList.head? = some c) : isPySpace c = false :=
  stripEnds_head h

theorem clean_html_getLast {text : String} {c : Char}
    (h : (clean_html text).toList.getLast? = some c) : isPySpace c = false :=
  stripEnds_getLast h

theorem to_news_obj_summary (t link pub desc : String) :
    (to_news_obj t link pub desc).summary =
      if 220 < (clean_html desc).length then strTake (clean_html desc) 217 ++ "…"
      else clean_html desc := rfl

theorem to_news_obj_summary_length (t link pub desc : String) :
    (to_news_obj t link pub desc).summary.length =
      if 220 < (clean_html desc).length then 218
      else (clean_html desc).length := by
  rw [to_news_obj_summary]
  by_cases h : 220 < (clean_html desc).length
  · rw [if_pos h, if_pos h, String.length_append]
    have htake : (strTake (clean_html desc) 217).length = 217 := by
      show ((clean_html desc).toList.take 217).length = 217
      rw [List.length_take]
      have : (clean_html desc).toList.length = (clean_html desc).length := rfl
      omega
    rw [htake]
    rfl
  · rw [if_neg h, if_neg h]

/-! ## Claims -/

/-- C1 (counterexample): in the end-to-end scenario with no overrides, the
re-ranking step scores the tool named Udio AI at exactly 78.2, which is not
approximately 80.9 (it differs by 2.7), contradicting the claimed score. -/
theorem claim_C1_counterexample :
    score_for "Udio AI" [] = 78.2 ∧
    score_for "Udio AI" [] ≠ 80.9 ∧
    |score_for "Udio AI" [] - 80.9| = 2.7 := by
  have h : score_for "Udio AI" [] = 78.2 := by
    simp [score_for, mergedProfile, fillDefaults, DEFAULTS, WEIGHTS, dictGet,
      dictUpdate, dictSetdefault, dictSet]
    norm_num
  refine ⟨h, ?_, ?_⟩
  · rw [h]; norm_num
  · rw [h]; norm_num

/-- C1 (amended): for the input category with rows Udio AI, ElevenLabs and
Unknown Tool and an empty overrides mapping, the re-ranking step computes
scores ElevenLabs = 0.40*88 + 0.25*88 + 0.10*75 + 0.10*78 + 0.15*82 = 84.8,
Udio AI = 78.2 (not approximately 80.9 as claimed), Unknown Tool = 70, and
outputs the rows in order ElevenLabs ranked 1st, Udio AI ranked 2nd, Unknown
Tool ranked 3rd. -/
theorem claim_C1_end_to_end :
    score_for "ElevenLabs" [] =
      0.40 * 88 + 0.25 * 88 + 0.10 * 75 + 0.10 * 78 + 0.15 * 82 ∧
    score_for "ElevenLabs" [] = 84.8 ∧
    score_for "Udio AI" [] = 78.2 ∧
    score_for "Unknown Tool" [] = 70 ∧
    rerankRows []
        [[("tool", "Udio AI")], [("tool", "ElevenLabs")], [("tool", "Unknown Tool")]] =
      [[("tool", "ElevenLabs"), ("rank", "1st")],
       [("tool", "Udio AI"), ("rank", "2nd")],
       [("tool", "Unknown Tool"), ("rank", "3rd")]] := by
  have sU : score_for "Udio AI" [] = 78.2 := by
    simp [score_for, mergedProfile, fillDefaults, DEFAULTS, WEIGHTS, dictGet,
      dictUpdate, dictSetdefault, dictSet]
    norm_num
  have sE : score_for "ElevenLabs" [] = 84.8 := by
    simp [score_for, mergedProfile, fillDefaults, DEFAULTS, WEIGHTS, dictGet,
      dictUpdate, dictSetdefault, dictSet]
    norm_num
  have sX : score_for "Unknown Tool" [] = 70 := by
    simp [score_for, mergedProfile, fillDefaults, DEFAULTS, WEIGHTS, dictGet,
      dictUpdate, dictSetdefault, dictSet]
    norm_num
  have hU : rowScore [] [("tool", "Udio AI")] = 78.2 := by
    rw [show rowScore [] [("tool", "Udio AI")] = score_for "Udio AI" [] by
      simp [rowScore, toolOf, dictGet]]
    exact sU
  have hE : rowScore [] [("tool", "ElevenLabs")] = 84.8 := by
    rw [show rowScore [] [("tool", "ElevenLabs")] = score_for "ElevenLabs" [] by
      simp [rowScore, toolOf, dictGet]]
    exact sE
  have hX : rowScore [] [("tool", "Unknown Tool")] = 70 := by
    rw [show rowScore [] [("tool", "Unknown Tool")] = score_for "Unknown Tool" [] by
      simp [rowScore, toolOf, dictGet]]
    exact sX
  refine ⟨?_, sE, sU, sX, ?_⟩
  · rw [sE]; norm_num
  · simp only [rerankRows, sortDescBy, List.insertionSort, List.orderedInsert]
    rw [if_pos (show rowScore [] [("tool", "Unknown Tool")] ≤
          rowScore [] [("tool", "ElevenLabs")] by rw [hE, hX]; norm_num)]
    simp only [List.orderedInsert]
    rw [if_neg (show ¬ rowScore [] [("tool", "ElevenLabs")] ≤
          rowScore [] [("tool", "Udio AI")] by rw [hU, hE]; norm_num)]
    rw [if_pos (show rowScore [] [("tool", "Unknown Tool")] ≤
          rowScore [] [("tool", "Udio AI")] by rw [hU, hX]; norm_num)]
    simp [assignRanks, ordinal, dictSet]

/-- C2: for every category and every number of rows (including zero rows,
which produce an empty processed list, and one row, which gets rank 1st),
re-ranking writes as rank fields exactly the ordinal strings 1st, 2nd, 3rd,
4th, and so on up to the row count, in output order with no gaps or repeats,
and the processed list always has exactly as many rows as the input, so no
category size can make the step fail. -/
theorem claim_C2_rank_sequence (ov : Overrides) (rows : List Row) :
    (rerankRows ov rows).map (fun r => dictGet r "rank") =
      (List.range rows.length).map (fun j => some (ordinal (j + 1))) ∧
    (rerankRows ov rows).length = rows.length :=
  ⟨rerankRows_rank_map ov rows, rerankRows_length ov rows⟩

/-- C3: a tool name absent from both the defaults table and the overrides
mapping scores exactly 70, and the five fixed weights sum to exactly 1. -/
theorem claim_C3_unknown_tool (tool : String) (ov : Overrides)
    (h1 : dictGet DEFAULTS tool = none) (h2 : dictGet ov tool = none) :
    score_for tool ov = 70 ∧ (WEIGHTS.map (fun p => p.2)).sum = 1 := by
  refine ⟨score_for_absent tool ov h1 h2, ?_⟩
  norm_num [WEIGHTS]

/-- C3 witness: the tool name Unknown Tool is in neither table and scores
exactly 70. -/
theorem claim_C3_witness :
    score_for "Unknown Tool" [] = 70 ∧ (WEIGHTS.map (fun p => p.2)).sum = 1 :=
  claim_C3_unknown_tool "Unknown Tool" []
    (by simp [DEFAULTS, dictGet]) rfl

/-- C4: re-ranking is a pure function of the row tool names, overrides and
defaults: rows with equal tool fields get equal scores, and applying the
re-ranking step to its own output reproduces that output exactly
(idempotence). -/
theorem claim_C4_idempotent (ov : Overrides) (rows : List Row) :
    rerankRows ov (rerankRows ov rows) = rerankRows ov rows ∧
    (∀ r r' : Row, toolOf r = toolOf r' → rowScore ov r = rowScore ov r') := by
  refine ⟨rerankRows_idem ov rows, ?_⟩
  intro r r' h
  simp [rowScore, h]

/-- C4 witness: idempotence at a concrete two-row category, and score
equality for two concrete rows sharing a tool name. -/
theorem claim_C4_witness :
    rerankRows [] (rerankRows [] [[("tool", "ElevenLabs")], [("tool", "Udio AI")]]) =
      rerankRows [] [[("tool", "ElevenLabs")], [("tool", "Udio AI")]] ∧
    rowScore [] [("tool", "ElevenLabs"), ("note", "x")] =
      rowScore [] [("tool", "ElevenLabs")] :=
  ⟨(claim_C4_idempotent [] [[("tool", "ElevenLabs")], [("tool", "Udio AI")]]).1,
   (claim_C4_idempotent [] []).2
     [("tool", "ElevenLabs"), ("note", "x")] [("tool", "ElevenLabs")]
     (by simp [toolOf, dictGet])⟩

/-- C5: for a tool present in the defaults table, the override mapping
assigning cost 10 changes only the cost dimension of the merged profile and
sets that dimension to 10; and in general, whenever two override mappings
produce merged profiles agreeing on every dimension except cost, the total
weighted scores differ by exactly 0.10 times the cost difference. -/
theorem claim_C5_cost_override :
    (∀ (tool : String) (prof : List (String × ℚ)),
      dictGet DEFAULTS tool = some prof →
      (∀ k : String, k ≠ "cost" →
        dictGet (mergedProfile tool [(tool, [("cost", (10 : ℚ))])]) k =
          dictGet (mergedProfile tool []) k) ∧
      dictGet (mergedProfile tool [(tool, [("cost", (10 : ℚ))])]) "cost" =
        some 10) ∧
    (∀ (tool : String) (ov₁ ov₂ : Overrides),
      (∀ k : String, k ≠ "cost" →
        dictGet (mergedProfile tool ov₁) k = dictGet (mergedProfile tool ov₂) k) →
      score_for tool ov₁ - score_for tool ov₂ =
        0.10 * ((dictGet (mergedProfile tool ov₁) "cost").getD 0 -
          (dictGet (mergedProfile tool ov₂) "cost").getD 0)) := by
  constructor
  · intro tool prof h
    have hov : dictGet [(tool, [("cost", (10 : ℚ))])] tool =
        some [("cost", (10 : ℚ))] := by simp [dictGet]
    have hbase1 : mergedProfile tool [(tool, [("cost", (10 : ℚ))])] =
        fillDefaults (dictSet prof "cost" 10) := by
      simp only [mergedProfile, h, hov, Option.getD_some]
      simp [dictUpdate, WEIGHTS, dictGet, List.filter, List.foldl]
    have hbase2 : mergedProfile tool [] = fillDefaults prof := by
      simp only [mergedProfile, h, Option.getD_some]
      simp [dictGet, dictUpdate, List.filter, List.foldl]
    constructor
    · intro k hk
      rw [hbase1, hbase2, fillDefaults_get, fillDefaults_get,
        dictGet_set_ne _ _ hk]
    · rw [hbase1, fillDefaults_get, dictGet_set_self]
      simp [WEIGHTS, dictGet]
  · intro tool ov₁ ov₂ hagree
    rw [score_for_expand, score_for_expand,
      hagree "popularity" (by decide), hagree "performance" (by decide),
      hagree "privacy" (by decide), hagree "innovation" (by decide)]
    ring

/-- C5 witness: for the tool ElevenLabs (present in the defaults) with the
concrete cost-10 override, the popularity dimension of the merged profile is
unchanged, the cost dimension becomes 10, and the score difference against
the no-overrides run is exactly 0.10 times the cost difference. -/
theorem claim_C5_witness :
    dictGet (mergedProfile "ElevenLabs" [("ElevenLabs", [("cost", (10 : ℚ))])])
        "popularity" =
      dictGet (mergedProfile "ElevenLabs" []) "popularity" ∧
    dictGet (mergedProfile "ElevenLabs" [("ElevenLabs", [("cost", (10 : ℚ))])])
        "cost" = some 10 ∧
    score_for "ElevenLabs" [("ElevenLabs", [("cost", (10 : ℚ))])] -
        score_for "ElevenLabs" [] =
      0.10 *
        ((dictGet (mergedProfile "ElevenLabs"
            [("ElevenLabs", [("cost", (10 : ℚ))])]) "cost").getD 0 -
          (dictGet (mergedProfile "ElevenLabs" []) "cost").getD 0) := by
  have hprof : dictGet DEFAULTS "ElevenLabs" =
      some [("popularity", (88 : ℚ)), ("performance", 88), ("cost", 75),
        ("privacy", 78), ("innovation", 82)] := by
    simp [DEFAULTS, dictGet]
  exact ⟨(claim_C5_cost_override.1 "ElevenLabs" _ hprof).1 "popularity" (by decide),
    (claim_C5_cost_override.1 "ElevenLabs" _ hprof).2,
    claim_C5_cost_override.2 "ElevenLabs" [("ElevenLabs", [("cost", (10 : ℚ))])] []
      ((claim_C5_cost_override.1 "ElevenLabs" _ hprof).1)⟩

/-- C6: the run always sets the timestamp to the current formatted instant;
when the news selection step yields zero items the existing news array is
left unchanged, and when it yields at least one item the news array is
replaced by the selection. -/
theorem claim_C6_news_frame (now : String) (pool : List Entry)
    (ov : Overrides) (doc : Doc) :
    (updateDoc now pool ov doc).timestamp = now ∧
    (selectNews pool = [] → (updateDoc now pool ov doc).news = doc.news) ∧
    (selectNews pool ≠ [] → (updateDoc now pool ov doc).news = selectNews pool) := by
  refine ⟨rfl, ?_, ?_⟩ <;> intro h <;> simp [updateDoc, h]

/-- C6 witness: with an empty pool the old news array survives and the
timestamp still updates; with a pool containing one relevant entry the news
array is replaced. -/
theorem claim_C6_witness :
    (updateDoc "T" [] [] ⟨"old", [], []⟩).news = [] ∧
    (updateDoc "T" [⟨"Gemini update", "http://x", "", "d"⟩] []
        ⟨"old", [], []⟩).news =
      selectNews [⟨"Gemini update", "http://x", "", "d"⟩] ∧
    (updateDoc "T" [] [] ⟨"old", [], []⟩).timestamp = "T" :=
  ⟨(claim_C6_news_frame "T" [] [] ⟨"old", [], []⟩).2.1 rfl,
   (claim_C6_news_frame "T" [⟨"Gemini update", "http://x", "", "d"⟩] []
      ⟨"old", [], []⟩).2.2 (by decide),
   (claim_C6_news_frame "T" [] [] ⟨"old", [], []⟩).1⟩

set_option maxRecDepth 40000 in
/-- C7: summary normalization strips every markup tag, collapses each
whitespace run to a single space and trims the ends (the cleaned text never
contains two adjacent whitespace characters and never starts or ends with
one); the summary is truncated to its first 217 characters plus one ellipsis
glyph, for a total length of 218, exactly when the cleaned text exceeds 220
characters, and is the cleaned text itself otherwise; an empty description
normalizes to the empty string; the markup example yields Hello world and a
300-character plain input yields a summary of length 218. -/
theorem claim_C7_summary :
    clean_html "" = "" ∧
    clean_html "<p>Hello   <b>world</b></p>" = "Hello world" ∧
    (∀ t link pub desc : String,
      (to_news_obj t link pub desc).summary.length =
        if 220 < (clean_html desc).length then 218
        else (clean_html desc).length) ∧
    (∀ t link pub desc : String, 220 < (clean_html desc).length →
      (to_news_obj t link pub desc).summary =
        strTake (clean_html desc) 217 ++ "…") ∧
    (∀ t link pub desc : String, (clean_html desc).length ≤ 220 →
      (to_news_obj t link pub desc).summary = clean_html desc) ∧
    (to_news_obj "t" "l" "" (String.mk (List.replicate 300 'a'))).summary.length
      = 218 ∧
    (∀ text : String, (clean_html text).toList.Chain'
      (fun a b => ¬(isPySpace a = true ∧ isPySpace b = true))) ∧
    (∀ (text : String) (c : Char),
      (clean_html text).toList.head? = some c → isPySpace c = false) ∧
    (∀ (text : String) (c : Char),
      (clean_html text).toList.getLast? = some c → isPySpace c = false) := by
  refine ⟨by decide, by decide, to_news_obj_summary_length, ?_, ?_, by decide,
    clean_html_chain, fun _ _ => clean_html_head, fun _ _ => clean_html_getLast⟩
  · intro t link pub desc h
    rw [to_news_obj_summary, if_pos h]
  · intro t link pub desc h
    rw [to_news_obj_summary, if_neg (not_lt.mpr h)]

set_option maxRecDepth 40000 in
/-- C7 witness: the truncation branch at the concrete 300-character input,
the identity branch at the markup example, and the no-leading-whitespace
property at the markup example. -/
theorem claim_C7_witness :
    (to_news_obj "t" "l" "" (String.mk (List.replicate 300 'a'))).summary =
      strTake (clean_html (String.mk (List.replicate 300 'a'))) 217 ++ "…" ∧
    (to_news_obj "t" "l" "" "<p>Hello   <b>world</b></p>").summary =
      "Hello world" ∧
    isPySpace 'H' = false := by
  refine ⟨claim_C7_summary.2.2.2.1 "t" "l" "" _ (by decide), ?_, ?_⟩
  · rw [claim_C7_summary.2.2.2.2.1 "t" "l" "" "<p>Hello   <b>world</b></p>"
      (by decide)]
    exact claim_C7_summary.2.1
  · exact claim_C7_summary.2.2.2.2.2.2.2.1 "<p>Hello   <b>world</b></p>" 'H'
      (by decide)

/-- C8: news selection drops candidates missing a title or link; the
remaining pool is stably sorted descending by the binary relevance score
(the items of each fixed score keep their original pool order, and scores
are non-increasing along the sorted pool); the walk over the sorted pool
collects, in order, the first entry of each title-link class, up to the
configured maximum count, so the output has at most that many items, never
two items with the same title-link pair, and only items with a nonempty
title and link. -/
theorem claim_C8_selection (pool : List Entry) :
    (∀ s : Nat,
      (sortDescBy relScore
          (pool.filter (fun e => !(e.title = "") && !(e.link = "")))).filter
          (fun e => relScore e == s) =
        (pool.filter (fun e => !(e.title = "") && !(e.link = ""))).filter
          (fun e => relScore e == s)) ∧
    (sortDescBy relScore
        (pool.filter (fun e => !(e.title = "") && !(e.link = "")))).Pairwise
      (fun a b => relScore b ≤ relScore a) ∧
    selectNews pool =
      ((dedupSeen [] (sortDescBy relScore
          (pool.filter (fun e => !(e.title = "") && !(e.link = ""))))).map
        (fun e => to_news_obj e.title e.link e.pub e.desc)).take MAX_NEWS ∧
    (selectNews pool).length ≤ MAX_NEWS ∧
    (selectNews pool).Pairwise
      (fun a b => (a.title, a.url) ≠ (b.title, b.url)) ∧
    (∀ n ∈ selectNews pool, ¬(n.title = "") ∧ ¬(n.url = "")) := by
  have hsel := selectNews_eq_dedup_take pool
  refine ⟨fun s => sortDescBy_filter_class relScore _ s,
    sortDescBy_pairwise relScore _, hsel, ?_, ?_, ?_⟩
  · rw [hsel]
    exact List.length_take_le _ _
  · rw [hsel]
    apply List.Pairwise.sublist (List.take_sublist _ _)
    rw [List.pairwise_map]
    exact dedupSeen_pairwise [] _
  · intro n hn
    rw [hsel] at hn
    obtain ⟨e, he, rfl⟩ := List.mem_map.mp (List.mem_of_mem_take hn)
    have he2 : e ∈ pool.filter (fun e => !(e.title = "") && !(e.link = "")) :=
      ((sortDescBy_perm relScore _).mem_iff).mp (mem_dedupSeen_mem he)
    have hb := (List.mem_filter.mp he2).2
    simp at hb
    exact ⟨hb.1, hb.2⟩

/-- C8 witness: selection applied to a concrete one-entry pool produces an
item with nonempty title and link. -/
theorem claim_C8_witness :
    ¬((to_news_obj "Gemini update" "http://x" "" "d").title = "") ∧
    ¬((to_news_obj "Gemini update" "http://x" "" "d").url = "") :=
  (claim_C8_selection [⟨"Gemini update", "http://x", "", "d"⟩]).2.2.2.2.2
    (to_news_obj "Gemini update" "http://x" "" "d") (by decide)

/-- C9: re-ranking preserves every row field other than rank: the rows with
their rank field removed form, in multiset terms, exactly the input rows
with their rank field removed; and the rank field of every output row is
overwritten or added with the ordinal of its position. -/
theorem claim_C9_row_frame (ov : Overrides) (rows : List Row) :
    ((rerankRows ov rows).map (fun r => dictErase r "rank")).Perm
      (rows.map (fun r => dictErase r "rank")) ∧
    (rerankRows ov rows).map (fun r => dictGet r "rank") =
      (List.range rows.length).map (fun j => some (ordinal (j + 1))) := by
  constructor
  · rw [rerankRows, assignRanks_map_erase]
    exact (sortDescBy_perm (rowScore ov) rows).map _
  · exact rerankRows_rank_map ov rows

/-- C10: a row with no tool key at all does not make re-ranking fail: it is
scored under the empty-string tool name, so when the empty string is a key
of neither the defaults table (which it is not) nor the overrides mapping
its score is exactly the neutral 70, and the row is ranked like any other
row (a category containing it keeps its full row count). -/
theorem claim_C10_missing_tool (ov : Overrides) (row : Row)
    (h1 : dictGet row "tool" = none) (h2 : dictGet ov "" = none) :
    rowScore ov row = 70 ∧
    ∀ rows : List Row, (rerankRows ov (row :: rows)).length = rows.length + 1 := by
  constructor
  · rw [rowScore, toolOf, h1, Option.getD_none]
    exact score_for_absent "" ov (by simp [DEFAULTS, dictGet]) h2
  · intro rows
    rw [rerankRows_length]
    simp

/-- C10 witness: a concrete row carrying only a name field scores 70 under
the empty overrides mapping and is still ranked. -/
theorem claim_C10_witness :
    rowScore [] [("name", "x")] = 70 ∧
    (rerankRows [] [[("name", "x")]]).length = 1 := by
  have h := claim_C10_missing_tool [] [("name", "x")] (by simp [dictGet]) rfl
  exact ⟨h.1, h.2 []⟩

end Leaderboard
